import Mathlib

/-!
Verification development for the "Android App Forge" repository.

The repository is a React/TypeScript application that generates, modifies
and reviews a multi-file Android project by orchestrating a generative
model.  The non-trivial logic lives in:

* the streaming delimiter-protocol parser inside `handleModification`
  (inner `while` loop over `--FILE_START: <path>--` / `--FILE_END--`
  delimited chunks),
* the file-tree builder `buildFileTree` and the presentation sort of
  `FileExplorer`,
* the changed-file reconciliation loop inside `analyzeChanges`,
* the review normalizer `ensureStructuredReview`,
* the per-file error recovery of `handleGenerateApp`, and
* the project construction of `handleImportProject`.

Strings are modelled as `List Char` where the parser manipulates raw
buffers (JavaScript `String.prototype.indexOf`, `substring`, `trim`), and
as Lean `String` elsewhere.  JavaScript objects used as string-keyed maps
are modelled as association lists in first-insertion order, which is the
enumeration order of non-numeric keys for JavaScript objects.
-/

/-- Abbreviation for raw character buffers (JavaScript strings). -/
abbrev LC := List Char

/-- Model of `str.startsWith(p)` on raw buffers: the first argument is a
prefix of the second. -/
def hasPref : LC → LC → Bool
  | [], _ => true
  | _ :: _, [] => false
  | p :: ps, c :: cs => p = c && hasPref ps cs

/-- Model of `buffer.indexOf(pat)`: index of the first occurrence of
`pat` in the buffer, `none` when absent (JavaScript returns `-1`). -/
def findSub (pat : LC) : LC → Option Nat
  | [] => if pat = [] then some 0 else none
  | c :: rest =>
      if hasPref pat (c :: rest) then some 0
      else
        match findSub pat rest with
        | some j => some (j + 1)
        | none => none

/-- Whitespace as trimmed by JavaScript `String.prototype.trim`
(restricted to the ASCII whitespace characters that can occur here). -/
def isWS (c : Char) : Bool :=
  c = ' ' || c = '\n' || c = '\t' || c = '\r' || c = '\x0b' || c = '\x0c'

/-- Model of `str.trim()`: drop whitespace from both ends. -/
def trimChars (s : LC) : LC :=
  ((s.dropWhile isWS).reverse.dropWhile isWS).reverse

/-- The delimiter `--FILE_START:` from `handleModification`. -/
def startDelimiter : LC := "--FILE_START:".toList

/-- The delimiter `--` closing the path segment. -/
def endDelimiter : LC := "--".toList

/-- The delimiter `--FILE_END--`. -/
def fileEndDelimiter : LC := "--FILE_END--".toList

/-- Result of one iteration of the inner `while (true)` loop of
`handleModification` on the current buffer. -/
inductive ScanStep where
  /-- `buffer.indexOf('--FILE_START:')` returned `-1`: break. -/
  | noStart : ScanStep
  /-- the path-closing `--` was not found yet: break. -/
  | noPathEnd : ScanStep
  /-- header parsed but `--FILE_END--` missing: emit a content delta for
  the open file (full replacement) and break, keeping the buffer. -/
  | midFile (path content : LC) : ScanStep
  /-- a full block was recognised: record the completed file, cut the
  consumed span from the buffer, continue the loop. -/
  | fileDone (path code : LC) (rest : LC) : ScanStep
deriving DecidableEq

/-- One iteration of the `while (true)` loop of `handleModification`
(src/unnamed/part_002, lines 298-326), as a function of the buffer. -/
def scanStep (buf : LC) : ScanStep :=
  match findSub startDelimiter buf with
  | none => .noStart
  | some s =>
      match findSub endDelimiter (buf.drop (s + startDelimiter.length)) with
      | none => .noPathEnd
      | some e0 =>
          let path := trimChars ((buf.drop (s + startDelimiter.length)).take e0)
          let contentStart := s + startDelimiter.length + e0 + endDelimiter.length
          match findSub fileEndDelimiter (buf.drop contentStart) with
          | none => .midFile path (buf.drop contentStart)
          | some f0 =>
              .fileDone path (trimChars ((buf.drop contentStart).take f0))
                (buf.drop (contentStart + f0 + fileEndDelimiter.length))

/-- Output of draining the loop on one buffer: completed files in order,
the at-most-one trailing content delta of a file still open, and the
remaining buffer. -/
structure ScanOut where
  comps : List (LC × LC)
  mid : Option (LC × LC)
  rest : LC
deriving DecidableEq

/-- Fuelled loop; the buffer strictly shrinks on every `fileDone`
iteration, so fuel `buf.length` is always enough (`scanBuffer`). -/
def scanBufferAux : Nat → LC → ScanOut
  | 0, buf => ⟨[], none, buf⟩
  | fuel + 1, buf =>
      match scanStep buf with
      | .fileDone p c rest =>
          let r := scanBufferAux fuel rest
          ⟨(p, c) :: r.comps, r.mid, r.rest⟩
      | .midFile p c => ⟨[], some (p, c), buf⟩
      | _ => ⟨[], none, buf⟩

/-- Drain the `while (true)` loop on a buffer until it breaks. -/
def scanBuffer (buf : LC) : ScanOut := scanBufferAux buf.length buf

/-- JavaScript object assignment `m[k] = v`: overwrite in place when the
key exists (keeping its position), append otherwise. -/
def setKeyA {α β : Type} [DecidableEq α] : List (α × β) → α → β → List (α × β)
  | [], k, v => [(k, v)]
  | (k', v') :: rest, k, v =>
      if k' = k then (k, v) :: rest else (k', v') :: setKeyA rest k v

/-- JavaScript object read `m[k]`. -/
def lookupA {α β : Type} [DecidableEq α] : List (α × β) → α → Option β
  | [], _ => none
  | (k', v') :: rest, k => if k = k' then some v' else lookupA rest k

/-- File-contents map of a project (`Record<string, string>`), keyed by
raw path. -/
abbrev FMap := List (LC × LC)

/-- State threaded through the `for await` loop of `handleModification`:
the completed files recorded in `updatedFiles` (in completion order), the
working `activeProject.files` as mutated by the per-file `setActiveProject`
updates, and the parse buffer. -/
structure ParseState where
  completions : List (LC × LC)
  files : FMap
  buffer : LC
deriving DecidableEq

/-- Apply the completed-file assignments of one chunk to the working
files map. -/
def applyComps (files : FMap) (cs : List (LC × LC)) : FMap :=
  cs.foldl (fun m pc => setKeyA m pc.1 pc.2) files

/-- Apply the trailing open-file content delta of one chunk, if any. -/
def applyMid (files : FMap) : Option (LC × LC) → FMap
  | some (p, c) => setKeyA files p c
  | none => files

/-- Process one stream chunk: append it to the buffer and drain the
inner loop (src/unnamed/part_002, lines 295-327). -/
def feedChunk (st : ParseState) (chunk : LC) : ParseState :=
  let r := scanBuffer (st.buffer ++ chunk)
  ⟨st.completions ++ r.comps, applyMid (applyComps st.files r.comps) r.mid, r.rest⟩

/-- Consume a whole fragment sequence starting from the committed files
`files0` and an empty buffer. -/
def runStream (files0 : FMap) (chunks : List LC) : ParseState :=
  chunks.foldl feedChunk ⟨[], files0, []⟩

/-- Concatenation of all fragments of a stream. -/
def joinChunks : List LC → LC
  | [] => []
  | c :: cs => c ++ joinChunks cs

/-- The `updatedFiles` record accumulated from the completion events. -/
def updatedFilesOf (cs : List (LC × LC)) : FMap :=
  cs.foldl (fun m pc => setKeyA m pc.1 pc.2) []

/-- JavaScript spread merge `{ ...old, ...upd }`. -/
def mergeMap (old upd : FMap) : FMap :=
  upd.foldl (fun m pc => setKeyA m pc.1 pc.2) old

/-- A review suggestion (`types.ts`). -/
structure Suggestion where
  id : String
  description : String
deriving DecidableEq

/-- A structured review (`types.ts`). -/
structure StructuredReview where
  crashBugs : List Suggestion
  uiUxImprovements : List Suggestion
  otherSuggestions : List Suggestion
deriving DecidableEq

/-- The constant `emptyReview` of src/unnamed/part_002. -/
def emptyReview : StructuredReview := ⟨[], [], []⟩

/-- The files/review pair of the active project visible to the UI. -/
structure ModProj where
  files : FMap
  review : StructuredReview
deriving DecidableEq

/-- Observable outcome of one modification attempt: an error path (model
threw, or the analyze step threw), the reported "no file changes" path,
or a commit of the merged files with a fresh review.  Nothing is saved on
the first two. -/
inductive ModOutcome where
  | failed (p : ModProj)
  | noChanges (p : ModProj)
  | committed (p : ModProj)
deriving DecidableEq

/-- Model of `handleModification` (src/unnamed/part_002, lines 257-358).
`files0`/`review0` are the pre-modification `activeProject` components
(`oldFiles` is a snapshot of `files0`); `chunks` are the fragments the
model stream yielded; `streamThrew` says whether the stream threw after
yielding them; `ana` is the result of `analyzeChanges` (`none` models a
throw).  The review is cleared to `emptyReview` during the attempt and
restored to `review0` on every error path; the commit path replaces both
files and review and is the only path that saves. -/
def handleModification (files0 : FMap) (review0 : StructuredReview)
    (chunks : List LC) (streamThrew : Bool) (ana : Option StructuredReview) :
    ModOutcome :=
  let st := runStream files0 chunks
  if streamThrew then .failed ⟨st.files, review0⟩
  else
    let upd := updatedFilesOf st.completions
    if upd = [] ∧ trimChars st.buffer = [] then .noChanges ⟨st.files, review0⟩
    else
      match ana with
      | none => .failed ⟨st.files, review0⟩
      | some rev => .committed ⟨mergeMap files0 upd, rev⟩

/-- The project component of an outcome. -/
def ModOutcome.proj : ModOutcome → ModProj
  | .failed p => p
  | .noChanges p => p
  | .committed p => p

/-- Rendering of a well-formed protocol stream from a list of
`(path, content)` blocks, following the wire grammar of the spec. -/
def renderBlocks : List (LC × LC) → LC
  | [] => []
  | (p, c) :: rest =>
      "--FILE_START: ".toList ++ p ++ "--".toList ++ c ++
        "--FILE_END--".toList ++ renderBlocks rest

/-- A full stream is well formed when it is a concatenation of zero or
more protocol blocks. -/
def WellFormedStream (s : LC) : Prop := ∃ bs, s = renderBlocks bs

/-! ## File tree (`buildFileTree` of src/unnamed/part_002 and the
presentation sort of `src/components/FileExplorer.tsx`) -/

/-- A planned file (`types.ts`). -/
structure FilePlan where
  path : String
  description : String
deriving DecidableEq

/-- Lexicographic comparison of raw strings by character code, modelling
the default-locale `String.prototype.localeCompare` ordering used by
`buildFileTree` (for the paths occurring here the root collation agrees
with code-point order). -/
def lexLeB : LC → LC → Bool
  | [], _ => true
  | _ :: _, [] => false
  | a :: as, b :: bs => if a = b then lexLeB as bs else decide (a < b)

/-- The comparator `(a, b) => a.path.localeCompare(b.path)` of
`buildFileTree`, as a binary relation. -/
def planLe (a b : FilePlan) : Prop := lexLeB a.path.toList b.path.toList = true

instance : DecidableRel planLe := fun _ _ =>
  inferInstanceAs (Decidable (_ = true))

/-- A node of the file tree: either a `FilePlan` leaf (an object with a
`path` field) or a directory object mapping segment names to child
nodes, in key-insertion order. -/
inductive TreeNode where
  | leaf (f : FilePlan)
  | dir (children : List (String × TreeNode))

/-- The children map of a directory level. -/
abbrev Children := List (String × TreeNode)

/-- Split a raw path on `/` (JavaScript `path.split('/')`); `acc` holds
the current segment reversed. -/
def splitChars : LC → LC → List LC
  | [], acc => [acc.reverse]
  | c :: rest, acc =>
      if c = '/' then acc.reverse :: splitChars rest []
      else splitChars rest (c :: acc)

/-- Path segmentation used by `buildFileTree`. -/
def splitPath (p : String) : List String :=
  (splitChars p.toList []).map (fun l => ⟨l⟩)

/-- Insert one file at its segment list: intermediate segments keep an
existing directory and replace anything else with a fresh `{}`; the final
segment is overwritten with the leaf (src/unnamed/part_002, lines 18-27). -/
def insertPath (m : Children) (segs : List String) (f : FilePlan) : Children :=
  match segs with
  | [] => m
  | [s] => setKeyA m s (.leaf f)
  | s :: rest =>
      let sub : Children :=
        match lookupA m s with
        | some (.dir c) => c
        | _ => []
      setKeyA m s (.dir (insertPath sub rest f))

/-- Model of `buildFileTree` (src/unnamed/part_002, lines 12-30): sort a
copy of the file list by path with `localeCompare` (a stable sort,
modelled by insertion sort) and insert each file in order. -/
def buildFileTree (files : List FilePlan) : Children :=
  (List.insertionSort planLe files).foldl
    (fun t f => insertPath t (splitPath f.path) f) []

/-- Whether an entry of a children map is a directory (the
`('path' in node) === false` test of `FileExplorer.tsx`). -/
def isDirEntry (e : String × TreeNode) : Bool :=
  match e.2 with
  | .dir _ => true
  | .leaf _ => false

/-- The presentation comparator of `FileExplorer.tsx` (lines 35-41 and
86-92) as a "less or equal" relation: it returns `-1` for a directory
against a leaf, `1` for a leaf against a directory, and `0` otherwise. -/
def presentLe (a b : String × TreeNode) : Prop :=
  (isDirEntry a || !isDirEntry b) = true

instance : DecidableRel presentLe := fun _ _ =>
  inferInstanceAs (Decidable (_ = true))

/-- The presentation order of a directory level: the stable
`entries.sort` of `FileExplorer.tsx`, modelled by insertion sort. -/
def presentSort (m : Children) : Children :=
  List.insertionSort presentLe m

/-- The presented child names of the directory stored under key `k`. -/
def childNames (m : Children) (k : String) : List String :=
  match lookupA m k with
  | some (.dir c) => (presentSort c).map Prod.fst
  | _ => []

/-- The leaf stored under key `k` of a children map, if any. -/
def leafAt (m : Children) (k : String) : Option FilePlan :=
  match lookupA m k with
  | some (.leaf f) => some f
  | _ => none

/-- Whether a list of names is in ascending `lexLeB` order; formalises
the "ascending default string order" wording of the spec. -/
def ascB : List String → Bool
  | [] => true
  | [_] => true
  | x :: y :: rest => lexLeB x.toList y.toList && ascB (y :: rest)

/-! ## Change reconciliation (`analyzeChanges` of
src/services/geminiService.ts, src/unnamed/part_000 lines 169-181) -/

/-- The set of paths whose before/after content the `analyzeChanges`
prompt shows, from its loop
`for path in oldFiles: if (newFiles[path] && newFiles[path] !== oldFiles[path])`.
Note the truthiness test on `newFiles[path]`: an empty-string new content
is skipped. -/
def changedPaths (oldFiles newFiles : List (String × String)) : List String :=
  (oldFiles.map Prod.fst).filter (fun p =>
    match lookupA newFiles p, lookupA oldFiles p with
    | some nv, some ov => nv ≠ "" && nv ≠ ov
    | _, _ => false)

/-! ## Review normalization (`ensureStructuredReview`,
src/unnamed/part_002 lines 35-47) -/

/-- Shape of a dynamically-typed persisted `review` object: each of the
three category fields is `some` list exactly when `Array.isArray` holds
for it. -/
structure RawObj where
  crashBugs : Option (List Suggestion)
  uiUxImprovements : Option (List Suggestion)
  otherSuggestions : Option (List Suggestion)
deriving DecidableEq

/-- A persisted `review` value: absent (`null`/`undefined`), a legacy
bare string, or an object. -/
inductive StoredReview where
  | missing : StoredReview
  | str (s : String) : StoredReview
  | obj (o : RawObj) : StoredReview
deriving DecidableEq

/-- JavaScript truthiness of a stored review value: `null`/`undefined`
and the empty string are falsy, every object is truthy. -/
def isFalsy : StoredReview → Bool
  | .missing => true
  | .str s => s = ""
  | .obj _ => false

/-- Model of `ensureStructuredReview` (src/unnamed/part_002, lines
35-47): the `if (!review)` guard, the `typeof review === 'string'`
legacy branch, the three `Array.isArray` checks, and the all-empty
fallback. -/
def ensureStructuredReview (review : StoredReview) : StructuredReview :=
  if isFalsy review then emptyReview
  else
    match review with
    | .str s => { emptyReview with otherSuggestions := [⟨"legacy-review", s⟩] }
    | .obj o =>
        match o.crashBugs, o.uiUxImprovements, o.otherSuggestions with
        | some c, some u, some t => ⟨c, u, t⟩
        | _, _, _ => emptyReview
    | .missing => emptyReview

/-! ## Initial generation walk (`handleGenerateApp`,
src/unnamed/part_002 lines 212-235) -/

/-- The placeholder written when one file's generation stream throws. -/
def errorPlaceholder : String :=
  "// Error generating code for this file. Please try modifying it."

/-- The files record built by the generation walk: one entry per plan
file, in plan order; `gen f = none` models a thrown per-file generation,
whose content becomes the placeholder. -/
def generateFiles (plan : List FilePlan) (gen : FilePlan → Option String) :
    List (String × String) :=
  plan.foldl
    (fun m f =>
      setKeyA m f.path
        (match gen f with
         | some code => code
         | none => errorPlaceholder))
    []

/-- Observable outcome of the `Drafting→Ready` walk: the final files and
the files handed to `reviewCode` at the end (`some` means the review was
requested). -/
structure GenOutcome where
  files : List (String × String)
  reviewedFiles : Option (List (String × String))
deriving DecidableEq

/-- Model of the generation loop plus the final `reviewCode(files)` call
of `handleGenerateApp`: the walk never aborts on a per-file failure and
always requests a review of the resulting files. -/
def handleGenerateApp (plan : List FilePlan) (gen : FilePlan → Option String) :
    GenOutcome :=
  let files := generateFiles plan gen
  ⟨files, some files⟩

/-! ## Import (`handleImportProject`, src/unnamed/part_002 lines
411-517) -/

/-- An application plan (`types.ts`). -/
structure AppPlan where
  appName : String
  appDescription : String
  packageName : String
  permissions : List String
  dependencies : List String
  fileStructure : List FilePlan
deriving DecidableEq

/-- A project record (`types.ts`). -/
structure ProjectR where
  id : String
  prompt : String
  plan : AppPlan
  files : List (String × String)
  review : StructuredReview
  createdAt : String
deriving DecidableEq

/-- The parsed `project.json` metadata of an imported archive; `id` and
`createdAt` may or may not be present, and `review` has the loose
persisted shape. -/
structure ImportMetadata where
  id : Option String
  createdAt : Option String
  prompt : String
  plan : AppPlan
  review : StoredReview
deriving DecidableEq

/-- Metadata-import construction (src/unnamed/part_002, lines 495-501):
`{ ...metadata, review: ensureStructuredReview(metadata.review), files,
id: fresh, createdAt: now }` — the later properties of the literal
override whatever the spread carried. -/
def importWithMetadata (metadata : ImportMetadata)
    (importedFiles : List (String × String)) (freshId nowIso : String) :
    ProjectR :=
  { id := freshId
    prompt := metadata.prompt
    plan := metadata.plan
    files := importedFiles
    review := ensureStructuredReview metadata.review
    createdAt := nowIso }

/-- Inferred-import construction (src/unnamed/part_002, lines 445-452):
plan and review come from `analyzeImportedProject`, the prompt is fixed,
id and createdAt are freshly generated. -/
def importInferred (plan : AppPlan) (review : StructuredReview)
    (importedFiles : List (String × String)) (freshId nowIso : String) :
    ProjectR :=
  { id := freshId
    prompt := "Project imported from a ZIP archive."
    plan := plan
    files := importedFiles
    review := review
    createdAt := nowIso }

/-! ## Helper lemmas: lists, buffers, substring search -/

theorem take_append_le {α : Type} (a b : List α) (n : Nat) (h : n ≤ a.length) :
    (a ++ b).take n = a.take n := by
  induction a generalizing n with
  | nil =>
      simp only [List.length_nil, Nat.le_zero] at h
      subst h; rfl
  | cons x xs ih =>
      cases n with
      | zero => rfl
      | succ m =>
          simp only [List.cons_append, List.take_succ_cons]
          rw [ih m (by simpa using h)]

theorem drop_append_le {α : Type} (a b : List α) (n : Nat) (h : n ≤ a.length) :
    (a ++ b).drop n = a.drop n ++ b := by
  induction a generalizing n with
  | nil =>
      simp only [List.length_nil, Nat.le_zero] at h
      subst h; rfl
  | cons x xs ih =>
      cases n with
      | zero => rfl
      | succ m =>
          simp only [List.cons_append, List.drop_succ_cons]
          exact ih m (by simpa using h)

theorem hasPref_append {p a : LC} (b : LC) (h : hasPref p a = true) :
    hasPref p (a ++ b) = true := by
  induction p generalizing a with
  | nil => rfl
  | cons x xs ih =>
      cases a with
      | nil => simp [hasPref] at h
      | cons c cs =>
          simp only [hasPref, Bool.and_eq_true, decide_eq_true_eq] at h
          simp only [List.cons_append, hasPref, Bool.and_eq_true, decide_eq_true_eq]
          exact ⟨h.1, ih h.2⟩

theorem hasPref_length {p s : LC} (h : hasPref p s = true) : p.length ≤ s.length := by
  induction p generalizing s with
  | nil => simp
  | cons x xs ih =>
      cases s with
      | nil => simp [hasPref] at h
      | cons c cs =>
          simp only [hasPref, Bool.and_eq_true] at h
          simpa using ih h.2

theorem hasPref_of_append_le {p a : LC} (b : LC) (hlen : p.length ≤ a.length)
    (h : hasPref p (a ++ b) = true) : hasPref p a = true := by
  induction p generalizing a with
  | nil => rfl
  | cons x xs ih =>
      cases a with
      | nil => simp at hlen
      | cons c cs =>
          simp only [List.cons_append, hasPref, Bool.and_eq_true, decide_eq_true_eq] at h
          simp only [hasPref, Bool.and_eq_true, decide_eq_true_eq]
          exact ⟨h.1, ih (by simpa using hlen) h.2⟩

theorem findSub_bound {p s : LC} {i : Nat} (h : findSub p s = some i) :
    i + p.length ≤ s.length := by
  induction s generalizing i with
  | nil =>
      by_cases hp : p = []
      · simp only [findSub, if_pos hp, Option.some.injEq] at h
        subst hp; subst h; simp
      · simp [findSub, hp] at h
  | cons c cs ih =>
      by_cases hpre : hasPref p (c :: cs) = true
      · simp only [findSub, hpre, if_true, Option.some.injEq] at h
        subst h
        simpa using hasPref_length hpre
      · simp only [findSub, hpre, if_false] at h
        cases hj : findSub p cs with
        | none => rw [hj] at h; exact absurd h (by simp)
        | some j =>
            rw [hj] at h
            simp only [Bool.false_eq_true, if_false, Option.some.injEq] at h
            subst h
            have := ih hj
            simp only [List.length_cons]
            omega

theorem findSub_nil_pat (l : LC) : findSub [] l = some 0 := by
  cases l with
  | nil => rfl
  | cons c cs => simp [findSub, hasPref]

theorem findSub_append {p s : LC} {i : Nat} (b : LC) (h : findSub p s = some i) :
    findSub p (s ++ b) = some i := by
  induction s generalizing i with
  | nil =>
      by_cases hp : p = []
      · simp only [findSub, if_pos hp, Option.some.injEq] at h
        subst hp; subst h
        simpa using findSub_nil_pat b
      · simp [findSub, hp] at h
  | cons c cs ih =>
      by_cases hpre : hasPref p (c :: cs) = true
      · simp only [findSub, hpre, if_true, Option.some.injEq] at h
        subst h
        have hp2 : hasPref p ((c :: cs) ++ b) = true := hasPref_append b hpre
        simp only [List.cons_append] at hp2
        simp [findSub, hp2]
      · simp only [findSub, hpre, if_false] at h
        cases hj : findSub p cs with
        | none => rw [hj] at h; exact absurd h (by simp)
        | some j =>
            rw [hj] at h
            simp only [Bool.false_eq_true, if_false, Option.some.injEq] at h
            subst h
            have hb : j + p.length ≤ cs.length := findSub_bound hj
            have hpre2 : ¬ hasPref p ((c :: cs) ++ b) = true := by
              intro hcon
              apply hpre
              apply hasPref_of_append_le b _ (by simpa using hcon)
              simp only [List.length_cons]
              omega
            have hres := ih hj
            have hpre3 : ¬ hasPref p (c :: (cs ++ b)) = true := by
              simpa using hpre2
            show findSub p ((c :: cs) ++ b) = some (j + 1)
            rw [List.cons_append]
            simp only [findSub]
            rw [if_neg hpre3, hres]

theorem findSub_head_mem {c : Char} {p s : LC} {i : Nat}
    (h : findSub (c :: p) s = some i) : c ∈ s := by
  induction s generalizing i with
  | nil => simp [findSub] at h
  | cons d ds ih =>
      by_cases hpre : hasPref (c :: p) (d :: ds) = true
      · simp only [hasPref, Bool.and_eq_true, decide_eq_true_eq] at hpre
        simp [hpre.1]
      · simp only [findSub, hpre, if_false] at h
        cases hj : findSub (c :: p) ds with
        | none => rw [hj] at h; exact absurd h (by simp)
        | some j => exact List.mem_cons_of_mem _ (ih hj)

/-- Eliminated form of a successful loop iteration: the three delimiter
searches that succeeded and the resulting path, code and buffer cut. -/
theorem scanStep_fileDone_facts {buf : LC} {p c rest : LC}
    (h : scanStep buf = .fileDone p c rest) :
    ∃ s e0 f0,
      findSub startDelimiter buf = some s ∧
      findSub endDelimiter (buf.drop (s + startDelimiter.length)) = some e0 ∧
      findSub fileEndDelimiter
        (buf.drop (s + startDelimiter.length + e0 + endDelimiter.length)) = some f0 ∧
      p = trimChars ((buf.drop (s + startDelimiter.length)).take e0) ∧
      c = trimChars
        ((buf.drop (s + startDelimiter.length + e0 + endDelimiter.length)).take f0) ∧
      rest = buf.drop
        (s + startDelimiter.length + e0 + endDelimiter.length + f0 +
          fileEndDelimiter.length) := by
  unfold scanStep at h
  cases hs : findSub startDelimiter buf with
  | none => simp [hs] at h
  | some s =>
      simp only [hs] at h
      cases he : findSub endDelimiter (buf.drop (s + startDelimiter.length)) with
      | none => simp [he] at h
      | some e0 =>
          simp only [he] at h
          cases hf : findSub fileEndDelimiter
              (buf.drop (s + startDelimiter.length + e0 + endDelimiter.length)) with
          | none => simp [hf] at h
          | some f0 =>
              simp only [hf, ScanStep.fileDone.injEq] at h
              exact ⟨s, e0, f0, rfl, he, hf, h.1.symm, h.2.1.symm, h.2.2.symm⟩

/-- Completing a block consumes at least the three delimiters, so the
remaining buffer is strictly shorter. -/
theorem scanStep_fileDone_lt {buf : LC} {p c rest : LC}
    (h : scanStep buf = .fileDone p c rest) : rest.length < buf.length := by
  obtain ⟨s, e0, f0, hs, he, hf, _, _, hrest⟩ := scanStep_fileDone_facts h
  have h1 := findSub_bound hs
  have h2 := findSub_bound he
  have h3 := findSub_bound hf
  rw [List.length_drop] at h2 h3
  have hsd : 0 < startDelimiter.length := by decide
  have hfd : 0 < fileEndDelimiter.length := by decide
  subst hrest
  rw [List.length_drop]
  omega

/-- Appending further input on the right does not change a successful
loop iteration: the first occurrences of all three delimiters and the
consumed span stay identical, and the cut buffer just carries the new
suffix. -/
theorem scanStep_append_fileDone {a : LC} (b : LC) {p c rest : LC}
    (h : scanStep a = .fileDone p c rest) :
    scanStep (a ++ b) = .fileDone p c (rest ++ b) := by
  obtain ⟨s, e0, f0, hs, he, hf, hp, hc, hrest⟩ := scanStep_fileDone_facts h
  have h1 := findSub_bound hs
  have h2 := findSub_bound he
  have h3 := findSub_bound hf
  rw [List.length_drop] at h2 h3
  have hslen : s + startDelimiter.length ≤ a.length := by omega
  have hcslen : s + startDelimiter.length + e0 + endDelimiter.length ≤ a.length := by
    omega
  have hrestlen :
      s + startDelimiter.length + e0 + endDelimiter.length + f0 +
        fileEndDelimiter.length ≤ a.length := by omega
  unfold scanStep
  simp only [findSub_append b hs, drop_append_le a b _ hslen, findSub_append b he,
    take_append_le (a.drop (s + startDelimiter.length)) b e0
      (by rw [List.length_drop]; omega),
    drop_append_le a b _ hcslen, findSub_append b hf,
    take_append_le
      (a.drop (s + startDelimiter.length + e0 + endDelimiter.length)) b f0
      (by rw [List.length_drop]; omega),
    drop_append_le a b _ hrestlen]
  rw [← hp, ← hc, ← hrest]

theorem scanStep_nil : scanStep [] = .noStart := rfl

theorem scanBufferAux_noStart {fuel : Nat} {buf : LC} (h : scanStep buf = .noStart) :
    scanBufferAux fuel buf = ⟨[], none, buf⟩ := by
  cases fuel with
  | zero => rfl
  | succ n => simp only [scanBufferAux, h]

theorem scanBufferAux_noPathEnd {fuel : Nat} {buf : LC}
    (h : scanStep buf = .noPathEnd) : scanBufferAux fuel buf = ⟨[], none, buf⟩ := by
  cases fuel with
  | zero => rfl
  | succ n => simp only [scanBufferAux, h]

/-- The fuelled loop does not depend on the fuel once it covers the
buffer length. -/
theorem scanBufferAux_congr : ∀ (n m : Nat) (buf : LC),
    buf.length ≤ n → buf.length ≤ m → scanBufferAux n buf = scanBufferAux m buf := by
  intro n
  induction n with
  | zero =>
      intro m buf hn _
      have hb : buf = [] := List.eq_nil_of_length_eq_zero (Nat.le_zero.mp hn)
      subst hb
      rw [scanBufferAux_noStart scanStep_nil, scanBufferAux_noStart scanStep_nil]
  | succ n ih =>
      intro m buf hn hm
      cases m with
      | zero =>
          have hb : buf = [] := List.eq_nil_of_length_eq_zero (Nat.le_zero.mp hm)
          subst hb
          rw [scanBufferAux_noStart scanStep_nil, scanBufferAux_noStart scanStep_nil]
      | succ k =>
          cases hstep : scanStep buf with
          | noStart => rw [scanBufferAux_noStart hstep, scanBufferAux_noStart hstep]
          | noPathEnd =>
              rw [scanBufferAux_noPathEnd hstep, scanBufferAux_noPathEnd hstep]
          | midFile p c => simp only [scanBufferAux, hstep]
          | fileDone p c rest =>
              have hlt := scanStep_fileDone_lt hstep
              simp only [scanBufferAux, hstep]
              rw [ih k rest (by omega) (by omega)]

theorem scanBuffer_noStart {buf : LC} (h : scanStep buf = .noStart) :
    scanBuffer buf = ⟨[], none, buf⟩ := scanBufferAux_noStart h

theorem scanBuffer_noPathEnd {buf : LC} (h : scanStep buf = .noPathEnd) :
    scanBuffer buf = ⟨[], none, buf⟩ := scanBufferAux_noPathEnd h

theorem scanBuffer_midFile {buf p c : LC} (h : scanStep buf = .midFile p c) :
    scanBuffer buf = ⟨[], some (p, c), buf⟩ := by
  cases buf with
  | nil =>
      rw [scanStep_nil] at h
      exact ScanStep.noConfusion h
  | cons x xs =>
      show scanBufferAux (x :: xs).length (x :: xs) = _
      simp only [List.length_cons, scanBufferAux, h]

theorem scanBuffer_fileDone {buf p c rest : LC}
    (h : scanStep buf = .fileDone p c rest) :
    scanBuffer buf =
      ⟨(p, c) :: (scanBuffer rest).comps, (scanBuffer rest).mid,
        (scanBuffer rest).rest⟩ := by
  have hlt := scanStep_fileDone_lt h
  cases buf with
  | nil => simp at hlt
  | cons x xs =>
      show scanBufferAux (x :: xs).length (x :: xs) = _
      simp only [List.length_cons, scanBufferAux, h]
      rw [scanBufferAux_congr xs.length rest.length rest
        (by simp at hlt; omega) le_rfl]
      exact rfl

/-- Confluence of the incremental loop: appending further input to a
drained buffer and draining again produces exactly the completions the
loop would produce on the whole input, in the same order, with the same
final buffer. -/
theorem scanBuffer_append (a b : LC) :
    (scanBuffer (a ++ b)).comps =
      (scanBuffer a).comps ++ (scanBuffer ((scanBuffer a).rest ++ b)).comps ∧
    (scanBuffer (a ++ b)).mid = (scanBuffer ((scanBuffer a).rest ++ b)).mid ∧
    (scanBuffer (a ++ b)).rest = (scanBuffer ((scanBuffer a).rest ++ b)).rest := by
  suffices H : ∀ (n : Nat) (a : LC), a.length ≤ n → ∀ (b : LC),
      (scanBuffer (a ++ b)).comps =
        (scanBuffer a).comps ++ (scanBuffer ((scanBuffer a).rest ++ b)).comps ∧
      (scanBuffer (a ++ b)).mid = (scanBuffer ((scanBuffer a).rest ++ b)).mid ∧
      (scanBuffer (a ++ b)).rest = (scanBuffer ((scanBuffer a).rest ++ b)).rest by
    exact H a.length a le_rfl b
  intro n
  induction n with
  | zero =>
      intro a ha b
      have hb : a = [] := List.eq_nil_of_length_eq_zero (Nat.le_zero.mp ha)
      subst hb
      have h0 : scanBuffer [] = ⟨[], none, []⟩ := rfl
      simp [h0]
  | succ n ih =>
      intro a ha b
      cases hstep : scanStep a with
      | noStart =>
          rw [scanBuffer_noStart hstep]
          simp
      | noPathEnd =>
          rw [scanBuffer_noPathEnd hstep]
          simp
      | midFile p c =>
          rw [scanBuffer_midFile hstep]
          simp
      | fileDone p c rest =>
          have hlt := scanStep_fileDone_lt hstep
          have h1 := scanBuffer_fileDone hstep
          have h2 := scanBuffer_fileDone (scanStep_append_fileDone b hstep)
          have ihr := ih rest (by omega) b
          rw [h1, h2]
          refine ⟨?_, ?_, ?_⟩
          · simp [ihr.1]
          · simp [ihr.2.1]
          · simp [ihr.2.2]

/-- A drained buffer cannot immediately complete another file. -/
theorem scanBuffer_rest_not_fileDone (buf : LC) :
    ∀ p c rest, scanStep ((scanBuffer buf).rest) ≠ .fileDone p c rest := by
  suffices H : ∀ (n : Nat) (buf : LC), buf.length ≤ n →
      ∀ p c rest, scanStep ((scanBuffer buf).rest) ≠ .fileDone p c rest by
    exact H buf.length buf le_rfl
  intro n
  induction n with
  | zero =>
      intro buf ha p c rest h
      have hb : buf = [] := List.eq_nil_of_length_eq_zero (Nat.le_zero.mp ha)
      subst hb
      rw [show (scanBuffer []).rest = [] from rfl, scanStep_nil] at h
      exact ScanStep.noConfusion h
  | succ n ih =>
      intro buf ha p c rest h
      cases hstep : scanStep buf with
      | noStart =>
          rw [scanBuffer_noStart hstep] at h
          rw [hstep] at h
          exact ScanStep.noConfusion h
      | noPathEnd =>
          rw [scanBuffer_noPathEnd hstep] at h
          rw [hstep] at h
          exact ScanStep.noConfusion h
      | midFile q d =>
          rw [scanBuffer_midFile hstep] at h
          rw [hstep] at h
          exact ScanStep.noConfusion h
      | fileDone q d rest2 =>
          have hlt := scanStep_fileDone_lt hstep
          rw [scanBuffer_fileDone hstep] at h
          exact ih rest2 (by omega) p c rest h

/-- On a buffer that cannot complete a file, the drain is a no-op. -/
theorem scanBuffer_of_not_fileDone {buf : LC}
    (hq : ∀ p c rest, scanStep buf ≠ .fileDone p c rest) :
    (scanBuffer buf).comps = [] ∧ (scanBuffer buf).rest = buf := by
  cases hstep : scanStep buf with
  | noStart => rw [scanBuffer_noStart hstep]; exact ⟨rfl, rfl⟩
  | noPathEnd => rw [scanBuffer_noPathEnd hstep]; exact ⟨rfl, rfl⟩
  | midFile p c => rw [scanBuffer_midFile hstep]; exact ⟨rfl, rfl⟩
  | fileDone p c rest => exact absurd hstep (hq p c rest)

/-- The chunked run accumulates exactly the completions of the drain on
the concatenated input, and ends on the same buffer, whatever the
chunking — the files component is the only chunking-sensitive part. -/
theorem foldl_feedChunk_spec : ∀ (chunks : List LC) (cs0 : List (LC × LC))
    (f0 : FMap) (buf : LC),
    (∀ p c rest, scanStep buf ≠ .fileDone p c rest) →
    (chunks.foldl feedChunk ⟨cs0, f0, buf⟩).completions =
      cs0 ++ (scanBuffer (buf ++ joinChunks chunks)).comps ∧
    (chunks.foldl feedChunk ⟨cs0, f0, buf⟩).buffer =
      (scanBuffer (buf ++ joinChunks chunks)).rest := by
  intro chunks
  induction chunks with
  | nil =>
      intro cs0 f0 buf hq
      have hnf := scanBuffer_of_not_fileDone hq
      simp only [List.foldl_nil, joinChunks, List.append_nil]
      exact ⟨by rw [hnf.1, List.append_nil], by rw [hnf.2]⟩
  | cons ch rest ih =>
      intro cs0 f0 buf hq
      simp only [List.foldl_cons]
      have hfc : feedChunk ⟨cs0, f0, buf⟩ ch =
          ⟨cs0 ++ (scanBuffer (buf ++ ch)).comps,
            applyMid (applyComps f0 (scanBuffer (buf ++ ch)).comps)
              (scanBuffer (buf ++ ch)).mid,
            (scanBuffer (buf ++ ch)).rest⟩ := rfl
      rw [hfc]
      have hq2 := scanBuffer_rest_not_fileDone (buf ++ ch)
      have H := ih (cs0 ++ (scanBuffer (buf ++ ch)).comps)
        (applyMid (applyComps f0 (scanBuffer (buf ++ ch)).comps)
          (scanBuffer (buf ++ ch)).mid)
        ((scanBuffer (buf ++ ch)).rest) hq2
      have hsa := scanBuffer_append (buf ++ ch) (joinChunks rest)
      constructor
      · rw [H.1]
        simp only [joinChunks]
        rw [← List.append_assoc buf ch (joinChunks rest)]
        rw [hsa.1]
        simp [List.append_assoc]
      · rw [H.2]
        simp only [joinChunks]
        rw [← List.append_assoc buf ch (joinChunks rest)]
        rw [hsa.2.2]

/-- Corollary for a full run: completion events and final buffer are a
function of the concatenated stream only. -/
theorem runStream_spec (f0 : FMap) (chunks : List LC) :
    (runStream f0 chunks).completions = (scanBuffer (joinChunks chunks)).comps ∧
    (runStream f0 chunks).buffer = (scanBuffer (joinChunks chunks)).rest := by
  have hq : ∀ p c rest, scanStep ([] : LC) ≠ .fileDone p c rest := by
    intro p c rest h
    rw [scanStep_nil] at h
    exact ScanStep.noConfusion h
  have H := foldl_feedChunk_spec chunks [] f0 [] hq
  simpa [runStream] using H

theorem allWS_of_trimChars_eq_nil {s : LC} (h : trimChars s = []) :
    ∀ c ∈ s, isWS c = true := by
  unfold trimChars at h
  rw [List.reverse_eq_nil_iff, List.dropWhile_eq_nil_iff] at h
  intro c hc
  have hsplit : s.takeWhile isWS ++ s.dropWhile isWS = s :=
    List.takeWhile_append_dropWhile isWS s
  rw [← hsplit] at hc
  rcases List.mem_append.mp hc with h1 | h2
  · exact List.mem_takeWhile_imp h1
  · exact h c (List.mem_reverse.mpr h2)

theorem scanStep_allWS {buf : LC} (h : ∀ c ∈ buf, isWS c = true) :
    scanStep buf = .noStart := by
  cases hs : findSub startDelimiter buf with
  | none => unfold scanStep; rw [hs]
  | some s =>
      exfalso
      have hs2 : findSub ('-' :: "-FILE_START:".toList) buf = some s := hs
      have hmem : ('-' : Char) ∈ buf := findSub_head_mem hs2
      exact absurd (h '-' hmem) (by decide)

/-- A run over an all-whitespace stream never touches the files: the
loop never even finds a `FILE_START`. -/
theorem foldl_feedChunk_allWS : ∀ (chunks : List LC) (cs0 : List (LC × LC))
    (f0 : FMap) (buf : LC),
    (∀ c ∈ buf ++ joinChunks chunks, isWS c = true) →
    chunks.foldl feedChunk ⟨cs0, f0, buf⟩ = ⟨cs0, f0, buf ++ joinChunks chunks⟩ := by
  intro chunks
  induction chunks with
  | nil =>
      intro cs0 f0 buf _
      simp [joinChunks]
  | cons ch rest ih =>
      intro cs0 f0 buf h
      simp only [List.foldl_cons]
      have hws1 : ∀ c ∈ buf ++ ch, isWS c = true := by
        intro c hc
        apply h
        rcases List.mem_append.mp hc with h1 | h2
        · exact List.mem_append.mpr (Or.inl h1)
        · refine List.mem_append.mpr (Or.inr ?_)
          simp only [joinChunks]
          exact List.mem_append.mpr (Or.inl h2)
      have hsb := scanBuffer_noStart (scanStep_allWS hws1)
      have hfc : feedChunk ⟨cs0, f0, buf⟩ ch = ⟨cs0, f0, buf ++ ch⟩ := by
        unfold feedChunk
        rw [hsb]
        simp [applyComps, applyMid]
      rw [hfc]
      have h2 : ∀ c ∈ (buf ++ ch) ++ joinChunks rest, isWS c = true := by
        intro c hc
        apply h
        simp only [joinChunks]
        simpa [List.append_assoc] using hc
      rw [ih cs0 f0 (buf ++ ch) h2]
      simp only [joinChunks]
      rw [List.append_assoc]

theorem setKeyA_ne_nil {α β : Type} [DecidableEq α] (m : List (α × β)) (k : α)
    (v : β) : setKeyA m k v ≠ [] := by
  cases m with
  | nil => simp [setKeyA]
  | cons kv rest =>
      obtain ⟨k', v'⟩ := kv
      unfold setKeyA
      split <;> simp

theorem foldl_setKeyA_ne_nil {α β : Type} [DecidableEq α] :
    ∀ (cs : List (α × β)) (m : List (α × β)), m ≠ [] →
      cs.foldl (fun m pc => setKeyA m pc.1 pc.2) m ≠ [] := by
  intro cs
  induction cs with
  | nil => intro m h; simpa
  | cons pc rest ih =>
      intro m _
      simp only [List.foldl_cons]
      exact ih _ (setKeyA_ne_nil _ _ _)

theorem updatedFilesOf_eq_nil {cs : List (LC × LC)} (h : updatedFilesOf cs = []) :
    cs = [] := by
  cases cs with
  | nil => rfl
  | cons pc rest =>
      exfalso
      unfold updatedFilesOf at h
      simp only [List.foldl_cons] at h
      exact foldl_setKeyA_ne_nil rest _ (setKeyA_ne_nil [] pc.1 pc.2) h

theorem lookupA_setKeyA_self {α β : Type} [DecidableEq α] (m : List (α × β))
    (k : α) (v : β) : lookupA (setKeyA m k v) k = some v := by
  induction m with
  | nil => simp [setKeyA, lookupA]
  | cons kv rest ih =>
      obtain ⟨k', v'⟩ := kv
      by_cases h : k' = k
      · simp [setKeyA, h, lookupA]
      · simp only [setKeyA, if_neg h, lookupA]
        rw [if_neg (fun hk => h hk.symm)]
        exact ih

theorem lookupA_setKeyA_ne {α β : Type} [DecidableEq α] {m : List (α × β)}
    {k j : α} (v : β) (h : k ≠ j) : lookupA (setKeyA m j v) k = lookupA m k := by
  induction m with
  | nil => simp [setKeyA, lookupA, if_neg h]
  | cons kv rest ih =>
      obtain ⟨k', v'⟩ := kv
      by_cases hkj : k' = j
      · subst hkj
        simp only [setKeyA, if_pos rfl, lookupA]
        rw [if_neg h, if_neg (by exact h)]
      · simp only [setKeyA, if_neg hkj, lookupA]
        by_cases hkk : k = k'
        · rw [if_pos hkk, if_pos hkk]
        · rw [if_neg hkk, if_neg hkk]
          exact ih

theorem lookupA_foldl_setKeyA_notmem {α β : Type} [DecidableEq α] :
    ∀ (cs : List (α × β)) (m : List (α × β)) (k : α), k ∉ cs.map Prod.fst →
      lookupA (cs.foldl (fun m pc => setKeyA m pc.1 pc.2) m) k = lookupA m k := by
  intro cs
  induction cs with
  | nil => intro m k _; rfl
  | cons pc rest ih =>
      intro m k h
      simp only [List.map_cons, List.mem_cons] at h
      push_neg at h
      simp only [List.foldl_cons]
      rw [ih _ k h.2, lookupA_setKeyA_ne pc.2 h.1]

theorem mem_fst_setKeyA {α β : Type} [DecidableEq α] :
    ∀ (m : List (α × β)) (k : α) (v : β) (j : α),
      j ∈ (setKeyA m k v).map Prod.fst → j ∈ m.map Prod.fst ∨ j = k := by
  intro m
  induction m with
  | nil =>
      intro k v j h
      simp [setKeyA] at h
      exact Or.inr h
  | cons kv rest ih =>
      intro k v j h
      obtain ⟨k', v'⟩ := kv
      by_cases hk : k' = k
      · simp only [setKeyA, if_pos hk, List.map_cons, List.mem_cons] at h
        rcases h with h | h
        · exact Or.inr h
        · exact Or.inl (by simp [h])
      · simp only [setKeyA, if_neg hk, List.map_cons, List.mem_cons] at h
        rcases h with h | h
        · exact Or.inl (by simp [h])
        · rcases ih k v j h with h2 | h2
          · exact Or.inl (by simp [h2])
          · exact Or.inr h2

theorem mem_fst_foldl_setKeyA {α β : Type} [DecidableEq α] :
    ∀ (cs : List (α × β)) (m : List (α × β)) (j : α),
      j ∈ ((cs.foldl (fun m pc => setKeyA m pc.1 pc.2) m).map Prod.fst) →
      j ∈ m.map Prod.fst ∨ j ∈ cs.map Prod.fst := by
  intro cs
  induction cs with
  | nil => intro m j h; exact Or.inl h
  | cons pc rest ih =>
      intro m j h
      simp only [List.foldl_cons] at h
      rcases ih _ j h with h2 | h2
      · rcases mem_fst_setKeyA m pc.1 pc.2 j h2 with h3 | h3
        · exact Or.inl h3
        · exact Or.inr (by simp [h3])
      · exact Or.inr (by simp [h2])

theorem lookupA_mergeMap_notmem {old upd : FMap} {k : LC}
    (h : k ∉ upd.map Prod.fst) : lookupA (mergeMap old upd) k = lookupA old k :=
  lookupA_foldl_setKeyA_notmem upd old k h

theorem notmem_updatedFilesOf {cs : List (LC × LC)} {k : LC}
    (h : k ∉ cs.map Prod.fst) : k ∉ (updatedFilesOf cs).map Prod.fst := by
  intro hc
  rcases mem_fst_foldl_setKeyA cs [] k hc with h1 | h2
  · simp at h1
  · exact h h2

theorem scanBuffer_rest_of_comps_nil {buf : LC}
    (h : (scanBuffer buf).comps = []) : (scanBuffer buf).rest = buf := by
  cases hstep : scanStep buf with
  | noStart => rw [scanBuffer_noStart hstep]
  | noPathEnd => rw [scanBuffer_noPathEnd hstep]
  | midFile p c => rw [scanBuffer_midFile hstep]
  | fileDone p c rest =>
      rw [scanBuffer_fileDone hstep] at h
      simp at h

theorem runStream_allWS {f0 : FMap} {chunks : List LC}
    (h : ∀ c ∈ joinChunks chunks, isWS c = true) :
    runStream f0 chunks = ⟨[], f0, joinChunks chunks⟩ := by
  have H := foldl_feedChunk_allWS chunks [] f0 [] (by simpa using h)
  simpa [runStream] using H

/-- Unfolded shape of `handleModification`. -/
theorem handleModification_cases (files0 : FMap) (review0 : StructuredReview)
    (chunks : List LC) (streamThrew : Bool) (ana : Option StructuredReview) :
    handleModification files0 review0 chunks streamThrew ana =
      if streamThrew then .failed ⟨(runStream files0 chunks).files, review0⟩
      else
        if updatedFilesOf (runStream files0 chunks).completions = [] ∧
            trimChars (runStream files0 chunks).buffer = [] then
          .noChanges ⟨(runStream files0 chunks).files, review0⟩
        else
          match ana with
          | none => .failed ⟨(runStream files0 chunks).files, review0⟩
          | some rev =>
              .committed
                ⟨mergeMap files0 (updatedFilesOf (runStream files0 chunks).completions),
                  rev⟩ := rfl

/-- Every error path restores the pre-modification review. -/
theorem handleModification_failed_review {files0 : FMap}
    {review0 : StructuredReview} {chunks : List LC} {streamThrew : Bool}
    {ana : Option StructuredReview} {p : ModProj}
    (h : handleModification files0 review0 chunks streamThrew ana = .failed p) :
    p.review = review0 := by
  rw [handleModification_cases] at h
  cases streamThrew with
  | true =>
      simp only [if_true] at h
      injection h with h2
      rw [← h2]
  | false =>
      simp only [Bool.false_eq_true, if_false] at h
      by_cases hcond : updatedFilesOf (runStream files0 chunks).completions = [] ∧
          trimChars (runStream files0 chunks).buffer = []
      · rw [if_pos hcond] at h
        exact ModOutcome.noConfusion h
      · rw [if_neg hcond] at h
        cases ana with
        | none =>
            injection h with h2
            rw [← h2]
        | some rev => exact ModOutcome.noConfusion h

/-- The "no file changes" path restores the review and leaves the files
untouched: its guard forces an all-whitespace stream, on which the loop
never fires a content delta. -/
theorem handleModification_noChanges_state {files0 : FMap}
    {review0 : StructuredReview} {chunks : List LC} {streamThrew : Bool}
    {ana : Option StructuredReview} {p : ModProj}
    (h : handleModification files0 review0 chunks streamThrew ana = .noChanges p) :
    p.files = files0 ∧ p.review = review0 := by
  rw [handleModification_cases] at h
  cases streamThrew with
  | true =>
      simp only [if_true] at h
      exact ModOutcome.noConfusion h
  | false =>
      simp only [Bool.false_eq_true, if_false] at h
      by_cases hcond : updatedFilesOf (runStream files0 chunks).completions = [] ∧
          trimChars (runStream files0 chunks).buffer = []
      · rw [if_pos hcond] at h
        injection h with h2
        have hcomp : (runStream files0 chunks).completions = [] :=
          updatedFilesOf_eq_nil hcond.1
        have hspec := runStream_spec files0 chunks
        have hjoin : (runStream files0 chunks).buffer = joinChunks chunks := by
          rw [hspec.2]
          apply scanBuffer_rest_of_comps_nil
          rw [← hspec.1]
          exact hcomp
        have hws : ∀ c ∈ joinChunks chunks, isWS c = true := by
          apply allWS_of_trimChars_eq_nil
          rw [← hjoin]
          exact hcond.2
        have hrun : runStream files0 chunks = ⟨[], files0, joinChunks chunks⟩ :=
          runStream_allWS hws
        rw [← h2]
        exact ⟨by rw [hrun], rfl⟩
      · rw [if_neg hcond] at h
        cases ana with
        | none => exact ModOutcome.noConfusion h
        | some rev => exact ModOutcome.noConfusion h

/-- The commit path merges the pre-modification files with exactly the
completed files and installs the freshly computed review. -/
theorem handleModification_committed_state {files0 : FMap}
    {review0 : StructuredReview} {chunks : List LC} {streamThrew : Bool}
    {ana : Option StructuredReview} {p : ModProj}
    (h : handleModification files0 review0 chunks streamThrew ana = .committed p) :
    ∃ rev, ana = some rev ∧
      p.files = mergeMap files0 (updatedFilesOf (runStream files0 chunks).completions) ∧
      p.review = rev := by
  rw [handleModification_cases] at h
  cases streamThrew with
  | true =>
      simp only [if_true] at h
      exact ModOutcome.noConfusion h
  | false =>
      simp only [Bool.false_eq_true, if_false] at h
      by_cases hcond : updatedFilesOf (runStream files0 chunks).completions = [] ∧
          trimChars (runStream files0 chunks).buffer = []
      · rw [if_pos hcond] at h
        exact ModOutcome.noConfusion h
      · rw [if_neg hcond] at h
        cases ana with
        | none => exact ModOutcome.noConfusion h
        | some rev =>
            injection h with h2
            exact ⟨rev, rfl, by rw [← h2], by rw [← h2]⟩

theorem lexLeB_refl : ∀ x : LC, lexLeB x x = true := by
  intro x
  induction x with
  | nil => rfl
  | cons a as ih => simp only [lexLeB, if_pos rfl]; exact ih

theorem lexLeB_total : ∀ x y : LC, lexLeB x y = true ∨ lexLeB y x = true := by
  intro x
  induction x with
  | nil => intro y; exact Or.inl rfl
  | cons a as ih =>
      intro y
      cases y with
      | nil => exact Or.inr rfl
      | cons b bs =>
          by_cases hab : a = b
          · subst hab
            simp only [lexLeB, if_pos rfl]
            exact ih bs
          · rcases lt_trichotomy a b with h | h | h
            · left
              simp only [lexLeB, if_neg hab]
              exact decide_eq_true h
            · exact absurd h hab
            · right
              simp only [lexLeB, if_neg (Ne.symm hab)]
              exact decide_eq_true h

theorem lexLeB_trans : ∀ x y z : LC, lexLeB x y = true → lexLeB y z = true →
    lexLeB x z = true := by
  intro x
  induction x with
  | nil => intros; rfl
  | cons a as ih =>
      intro y z hxy hyz
      cases y with
      | nil => simp [lexLeB] at hxy
      | cons b bs =>
          cases z with
          | nil => simp [lexLeB] at hyz
          | cons c cs =>
              by_cases hab : a = b
              · subst hab
                simp only [lexLeB, if_pos rfl] at hxy
                by_cases hac : a = c
                · subst hac
                  simp only [lexLeB, if_pos rfl] at hyz ⊢
                  exact ih bs cs hxy hyz
                · simp only [lexLeB, if_neg hac] at hyz ⊢
                  exact hyz
              · simp only [lexLeB, if_neg hab] at hxy
                have hab2 : a < b := of_decide_eq_true hxy
                by_cases hbc : b = c
                · subst hbc
                  simp only [lexLeB, if_neg hab]
                  exact decide_eq_true hab2
                · simp only [lexLeB, if_neg hbc] at hyz
                  have hbc2 : b < c := of_decide_eq_true hyz
                  have hac : a < c := lt_trans hab2 hbc2
                  simp only [lexLeB, if_neg (ne_of_lt hac)]
                  exact decide_eq_true hac

theorem lexLeB_antisymm : ∀ x y : LC, lexLeB x y = true → lexLeB y x = true →
    x = y := by
  intro x
  induction x with
  | nil =>
      intro y h1 h2
      cases y with
      | nil => rfl
      | cons b bs => simp [lexLeB] at h2
  | cons a as ih =>
      intro y h1 h2
      cases y with
      | nil => simp [lexLeB] at h1
      | cons b bs =>
          by_cases hab : a = b
          · subst hab
            simp only [lexLeB, if_pos rfl] at h1 h2
            rw [ih bs h1 h2]
          · simp only [lexLeB, if_neg hab] at h1
            simp only [lexLeB, if_neg (Ne.symm hab)] at h2
            have ha : a < b := of_decide_eq_true h1
            have hb : b < a := of_decide_eq_true h2
            exact absurd ha (not_lt_of_lt hb)

instance : IsTotal FilePlan planLe :=
  ⟨fun a b => lexLeB_total a.path.toList b.path.toList⟩

instance : IsTrans FilePlan planLe :=
  ⟨fun a b c => lexLeB_trans a.path.toList b.path.toList c.path.toList⟩

theorem string_toList_inj {s t : String} (h : s.toList = t.toList) : s = t := by
  cases s
  cases t
  simp only [String.toList] at h
  rw [h]

theorem planLe_antisymm_path {a b : FilePlan} (h1 : planLe a b) (h2 : planLe b a) :
    a.path = b.path :=
  string_toList_inj (lexLeB_antisymm a.path.toList b.path.toList h1 h2)

theorem orderedInsert_presentLe_dir {a : String × TreeNode}
    (h : isDirEntry a = true) (l : Children) :
    List.orderedInsert presentLe a l = a :: l := by
  cases l with
  | nil => rfl
  | cons b bs =>
      have hr : presentLe a b := by simp [presentLe, h]
      simp [List.orderedInsert, hr]

theorem orderedInsert_presentLe_leaf : ∀ (ds : Children),
    (∀ d ∈ ds, isDirEntry d = true) → ∀ (ls : Children) (a : String × TreeNode),
    isDirEntry a = false →
    List.orderedInsert presentLe a (ds ++ ls) =
      ds ++ List.orderedInsert presentLe a ls := by
  intro ds
  induction ds with
  | nil => intro _ ls a _; simp
  | cons d ds' ih =>
      intro hd ls a ha
      have hnr : ¬ presentLe a d := by
        simp [presentLe, ha, hd d (by simp)]
      simp only [List.cons_append, List.orderedInsert, if_neg hnr, List.append_eq]
      rw [ih (fun x hx => hd x (by simp [hx])) ls a ha]

/-- The presentation sort is the stable partition: directory entries
first in their stored order, then leaf entries in their stored order
(the comparator returns 0 inside each kind, and the sort is stable). -/
theorem presentSort_partition : ∀ m : Children,
    presentSort m =
      m.filter (fun e => isDirEntry e) ++ m.filter (fun e => !isDirEntry e) := by
  intro m
  induction m with
  | nil => rfl
  | cons a m ih =>
      show List.orderedInsert presentLe a (presentSort m) = _
      rw [ih]
      cases hda : isDirEntry a with
      | true =>
          rw [orderedInsert_presentLe_dir hda]
          simp [List.filter_cons, hda]
      | false =>
          rw [orderedInsert_presentLe_leaf (m.filter (fun e => isDirEntry e))
            (fun d hd => by simpa using (List.mem_filter.mp hd).2)
            (m.filter (fun e => !isDirEntry e)) a hda]
          have hfront : List.orderedInsert presentLe a
              (m.filter (fun e => !isDirEntry e)) =
              a :: m.filter (fun e => !isDirEntry e) := by
            cases hl : m.filter (fun e => !isDirEntry e) with
            | nil => rfl
            | cons x xs =>
                have hxmem : x ∈ m.filter (fun e => !isDirEntry e) := by
                  rw [hl]; exact List.mem_cons_self x xs
                have hx : isDirEntry x = false := by
                  have := (List.mem_filter.mp hxmem).2
                  simpa using this
                have hr : presentLe a x := by simp [presentLe, hx]
                simp [List.orderedInsert, hr]
          rw [hfront]
          simp [List.filter_cons, hda]

/-- Two sorted lists that are permutations of each other and have
pairwise-distinct paths are equal. -/
theorem sorted_perm_nodup_eq : ∀ (l1 l2 : List FilePlan), l1.Perm l2 →
    l1.Sorted planLe → l2.Sorted planLe → (l1.map FilePlan.path).Nodup →
    l1 = l2 := by
  intro l1
  induction l1 with
  | nil =>
      intro l2 hp _ _ _
      exact hp.nil_eq
  | cons a t1 ih =>
      intro l2 hp hs1 hs2 hnd
      cases l2 with
      | nil => simpa using hp.eq_nil
      | cons b t2 =>
          have hma : a ∈ b :: t2 := hp.mem_iff.mp (by simp)
          have hmb : b ∈ a :: t1 := hp.symm.mem_iff.mp (by simp)
          have hba : planLe b a := by
            rcases List.mem_cons.mp hma with h | h
            · rw [h]; exact lexLeB_refl _
            · exact List.rel_of_sorted_cons hs2 a h
          have hab2 : planLe a b := by
            rcases List.mem_cons.mp hmb with h | h
            · rw [h]; exact lexLeB_refl _
            · exact List.rel_of_sorted_cons hs1 b h
          have hpath : a.path = b.path := planLe_antisymm_path hab2 hba
          have hnd' : (a.path :: t1.map FilePlan.path).Nodup := by
            rw [List.map_cons] at hnd
            exact hnd
          have hnd2 := List.nodup_cons.mp hnd'
          have hab : a = b := by
            by_contra hne
            have hbt1 : b ∈ t1 := by
              rcases List.mem_cons.mp hmb with h | h
              · exact absurd h.symm hne
              · exact h
            have hmem : a.path ∈ t1.map FilePlan.path := by
              rw [hpath]
              exact List.mem_map_of_mem _ hbt1
            exact hnd2.1 hmem
          subst hab
          have hp2 : t1.Perm t2 := hp.cons_inv
          rw [ih t2 hp2 hs1.of_cons hs2.of_cons hnd2.2]

theorem lookupA_isSome_iff {α β : Type} [DecidableEq α] :
    ∀ (m : List (α × β)) (k : α),
      (lookupA m k).isSome = true ↔ k ∈ m.map Prod.fst := by
  intro m k
  induction m with
  | nil => simp [lookupA]
  | cons kv rest ih =>
      obtain ⟨k', v'⟩ := kv
      by_cases h : k = k'
      · simp [lookupA, h]
      · simp [lookupA, h, ih]

theorem lookupA_foldl_plan_notmem (cnt : FilePlan → String) :
    ∀ (plan : List FilePlan) (m : List (String × String)) (q : String),
      q ∉ plan.map FilePlan.path →
      lookupA (plan.foldl (fun m f => setKeyA m f.path (cnt f)) m) q =
        lookupA m q := by
  intro plan
  induction plan with
  | nil => intro m q _; rfl
  | cons p rest ih =>
      intro m q h
      simp only [List.map_cons, List.mem_cons] at h
      push_neg at h
      simp only [List.foldl_cons]
      rw [ih _ q h.2, lookupA_setKeyA_ne (cnt p) h.1]

/-- In the generation walk, with pairwise-distinct plan paths, every
plan file ends up mapped to its own generated content. -/
theorem lookupA_generateFiles_mem (cnt : FilePlan → String) :
    ∀ (plan : List FilePlan) (m : List (String × String)) (f : FilePlan),
      (plan.map FilePlan.path).Nodup → f ∈ plan →
      lookupA (plan.foldl (fun m g => setKeyA m g.path (cnt g)) m) f.path =
        some (cnt f) := by
  intro plan
  induction plan with
  | nil => intro m f _ hf; simp at hf
  | cons p rest ih =>
      intro m f hnd hf
      have hnd' : (p.path :: rest.map FilePlan.path).Nodup := by
        rw [List.map_cons] at hnd
        exact hnd
      have hnd2 := List.nodup_cons.mp hnd'
      simp only [List.foldl_cons]
      rcases List.mem_cons.mp hf with h | h
      · subst h
        rw [lookupA_foldl_plan_notmem cnt rest _ f.path hnd2.1]
        exact lookupA_setKeyA_self m f.path (cnt f)
      · exact ih _ f hnd2.2 h

/-! ## Claim theorems -/

/-- C4: for every well-formed protocol stream, any two ways of splitting
the same full string into fragments make `runStream` produce the same
completion events in the same order, and hence the same final path-to-
content mapping (`updatedFilesOf`).  The proof factors through
`runStream_spec`: events depend only on the concatenation. -/
theorem c4_chunking_invariance (S : LC) (cs1 cs2 : List LC) (f0 g0 : FMap)
    (_hwf : WellFormedStream S) (h1 : joinChunks cs1 = S)
    (h2 : joinChunks cs2 = S) :
    (runStream f0 cs1).completions = (runStream g0 cs2).completions ∧
    updatedFilesOf (runStream f0 cs1).completions =
      updatedFilesOf (runStream g0 cs2).completions := by
  have e1 := (runStream_spec f0 cs1).1
  have e2 := (runStream_spec g0 cs2).1
  rw [h1] at e1
  rw [h2] at e2
  have : (runStream f0 cs1).completions = (runStream g0 cs2).completions := by
    rw [e1, e2]
  exact ⟨this, by rw [this]⟩

/-- C4 witness: Example 1 of the spec, split as
`["--FILE_ST", "ART: a.txt--\nhel", "lo\n--FILE_END--"]` versus fed as a
single fragment. -/
theorem c4_witness :
    (runStream []
        ["--FILE_ST".toList, "ART: a.txt--\nhel".toList,
          "lo\n--FILE_END--".toList]).completions =
      (runStream [] ["--FILE_START: a.txt--\nhello\n--FILE_END--".toList]).completions :=
  (c4_chunking_invariance "--FILE_START: a.txt--\nhello\n--FILE_END--".toList
    ["--FILE_ST".toList, "ART: a.txt--\nhel".toList, "lo\n--FILE_END--".toList]
    ["--FILE_START: a.txt--\nhello\n--FILE_END--".toList] [] []
    ⟨[("a.txt".toList, "\nhello\n".toList)], by decide⟩
    (by decide) (by decide)).1

/-- C1 counterexample: a modification on a committed project whose
stream completes file `A` with new content and then throws leaves the
active project with the new `A` content — only the review is restored,
so the post-failure state is not the pre-modification `files`/`review`
pair. -/
theorem c1_counterexample :
    handleModification [("A".toList, "old".toList)] emptyReview
        ["--FILE_START: A--new--FILE_END--".toList] true none =
      .failed ⟨[("A".toList, "new".toList)], emptyReview⟩ ∧
    ([("A".toList, "new".toList)] : FMap) ≠ [("A".toList, "old".toList)] := by
  constructor
  · decide
  · decide

/-- C1 amended: on every failed modification attempt (model error or
"no file changes") the review is restored to its pre-modification value;
the files are additionally restored on the "no file changes" path (whose
guard forces a whitespace-only stream), but not after a thrown error,
where content applied during streaming remains. -/
theorem c1_amended_failure_restores_review (files0 : FMap)
    (review0 : StructuredReview) (chunks : List LC) (streamThrew : Bool)
    (ana : Option StructuredReview) (p : ModProj) :
    (handleModification files0 review0 chunks streamThrew ana = .failed p →
      p.review = review0) ∧
    (handleModification files0 review0 chunks streamThrew ana = .noChanges p →
      p.files = files0 ∧ p.review = review0) :=
  ⟨fun h => handleModification_failed_review h,
   fun h => handleModification_noChanges_state h⟩

/-- C1 witness: a whitespace-only stream is reported as "no file
changes" and both components revert. -/
theorem c1_witness :
    (⟨[("A".toList, "x".toList)], emptyReview⟩ : ModProj).files =
        [("A".toList, "x".toList)] ∧
      (⟨[("A".toList, "x".toList)], emptyReview⟩ : ModProj).review = emptyReview :=
  (c1_amended_failure_restores_review [("A".toList, "x".toList)] emptyReview
      ["   ".toList] false none
      ⟨[("A".toList, "x".toList)], emptyReview⟩).2 (by decide)

/-- C2 counterexample: the stream of Example 4 ends while file `X` is
open.  The loop records no completion for `X`, the commit merges only
completed files, and `X` is absent from the committed map — its
accumulated content is not committed, contradicting the claimed final
`FileComplete` on the end-of-stream signal. -/
theorem c2_counterexample :
    (runStream [("A".toList, "a".toList)]
        ["--FILE_START: X--\npartial conten".toList]).completions = [] ∧
    handleModification [("A".toList, "a".toList)] emptyReview
        ["--FILE_START: X--\npartial conten".toList] false (some emptyReview) =
      .committed ⟨[("A".toList, "a".toList)], emptyReview⟩ ∧
    lookupA [("A".toList, "a".toList)] "X".toList = none := by
  refine ⟨by decide, by decide, by decide⟩

/-- C2 amended: when the stream ends with a file still open (the final
buffer scans to an open-file step), no completion event is appended for
it at end of stream — the run's events are exactly those of draining the
concatenated input — and on the commit path a path with no completion
keeps its pre-modification content (it is absent if it was absent). -/
theorem c2_amended_open_file_dropped (files0 : FMap)
    (review0 : StructuredReview) (chunks : List LC) (rev : StructuredReview)
    (p : ModProj) (pathX content : LC)
    (_hmid : scanStep ((runStream files0 chunks).buffer) = .midFile pathX content)
    (hcommit : handleModification files0 review0 chunks false (some rev) =
      .committed p)
    (hnc : pathX ∉ ((runStream files0 chunks).completions.map Prod.fst)) :
    (runStream files0 chunks).completions =
      (scanBuffer (joinChunks chunks)).comps ∧
    lookupA p.files pathX = lookupA files0 pathX := by
  constructor
  · exact (runStream_spec files0 chunks).1
  · obtain ⟨rev', _, hfiles, _⟩ := handleModification_committed_state hcommit
    rw [hfiles]
    exact lookupA_mergeMap_notmem (notmem_updatedFilesOf hnc)

/-- C2 witness: the concrete Example 4 stream against a one-file
project. -/
theorem c2_witness :
    lookupA (⟨[("A".toList, "a".toList)], emptyReview⟩ : ModProj).files
        "X".toList =
      lookupA [("A".toList, "a".toList)] "X".toList :=
  (c2_amended_open_file_dropped [("A".toList, "a".toList)] emptyReview
      ["--FILE_START: X--\npartial conten".toList] emptyReview
      ⟨[("A".toList, "a".toList)], emptyReview⟩ "X".toList
      "\npartial conten".toList (by decide) (by decide) (by decide)).2

/-- C5 counterexample: a stream that completes zero files but leaves
non-whitespace commentary is not reported as "no file changes": the
attempt is committed (files unchanged) and a freshly computed review
replaces the old one. -/
theorem c5_counterexample :
    handleModification [("A".toList, "a".toList)] emptyReview
        ["I cannot make these changes.".toList] false
        (some ⟨[⟨"new-bug", "desc"⟩], [], []⟩) =
      .committed ⟨[("A".toList, "a".toList)],
        ⟨[⟨"new-bug", "desc"⟩], [], []⟩⟩ ∧
    (⟨[⟨"new-bug", "desc"⟩], [], []⟩ : StructuredReview) ≠ emptyReview := by
  refine ⟨by decide, by decide⟩

/-- C5 amended: a zero-completions attempt is reported as "no file
changes" exactly when the leftover buffer trims to empty; with non-empty
leftover it proceeds to commit (files unchanged, since nothing
completed) with the freshly computed review. -/
theorem c5_amended_zero_files (files0 : FMap) (review0 rev : StructuredReview)
    (chunks : List LC)
    (hzero : (runStream files0 chunks).completions = []) :
    (trimChars (runStream files0 chunks).buffer = [] →
      handleModification files0 review0 chunks false (some rev) =
        .noChanges ⟨files0, review0⟩) ∧
    (trimChars (runStream files0 chunks).buffer ≠ [] →
      handleModification files0 review0 chunks false (some rev) =
        .committed ⟨files0, rev⟩) := by
  constructor
  · intro htrim
    have hout : handleModification files0 review0 chunks false (some rev) =
        .noChanges ⟨(runStream files0 chunks).files, review0⟩ := by
      rw [handleModification_cases]
      simp only [Bool.false_eq_true, if_false]
      rw [if_pos ⟨by rw [hzero]; rfl, htrim⟩]
    have hstate := handleModification_noChanges_state hout
    rw [hout]
    have hfiles : (runStream files0 chunks).files = files0 := hstate.1
    rw [hfiles]
  · intro htrim
    rw [handleModification_cases]
    simp only [Bool.false_eq_true, if_false]
    rw [if_neg (fun hc => htrim hc.2)]
    rw [hzero]
    rfl

/-- C5 witness: non-whitespace commentary with zero completed files is
committed with files unchanged. -/
theorem c5_witness :
    handleModification [("A".toList, "a".toList)] emptyReview ["hi".toList]
        false (some emptyReview) =
      .committed ⟨[("A".toList, "a".toList)], emptyReview⟩ :=
  (c5_amended_zero_files [("A".toList, "a".toList)] emptyReview emptyReview
      ["hi".toList] (by decide)).2 (by decide)

/-- C3 counterexample: `A` exists in both maps with different exact
contents (`"x"` versus `""`), yet the reconciliation loop excludes it,
because the truthiness test `newFiles[path] &&` rejects the empty
string. -/
theorem c3_counterexample :
    ("A" ∉ changedPaths [("A", "x")] [("A", "")]) ∧
    lookupA [("A", "x")] "A" = some "x" ∧
    lookupA [("A", "")] "A" = some "" ∧
    ("x" : String) ≠ "" := by
  refine ⟨by decide, by decide, by decide, by decide⟩

/-- C3 amended: a path is in the changed set iff it is a key of both
maps, its new content is a non-empty string, and the new content differs
from the old as exact strings (no normalization). -/
theorem c3_amended_changed_iff (oldFiles newFiles : List (String × String))
    (p : String) :
    p ∈ changedPaths oldFiles newFiles ↔
      ∃ ov nv, lookupA oldFiles p = some ov ∧ lookupA newFiles p = some nv ∧
        nv ≠ "" ∧ nv ≠ ov := by
  unfold changedPaths
  rw [List.mem_filter]
  constructor
  · rintro ⟨hmem, hpred⟩
    cases hn : lookupA newFiles p with
    | none =>
        rw [hn] at hpred
        cases ho : lookupA oldFiles p <;> rw [ho] at hpred <;> simp at hpred
    | some nv =>
        cases ho : lookupA oldFiles p with
        | none =>
            rw [hn, ho] at hpred
            simp at hpred
        | some ov =>
            rw [hn, ho] at hpred
            simp only [Bool.and_eq_true, decide_eq_true_eq] at hpred
            exact ⟨ov, nv, rfl, rfl, hpred.1, hpred.2⟩
  · rintro ⟨ov, nv, hov, hnv, hne, hne2⟩
    refine ⟨?_, ?_⟩
    · rw [← lookupA_isSome_iff]
      rw [hov]
      rfl
    · rw [hnv, hov]
      simp [hne, hne2]

/-- C6 counterexample: for plan paths `x/a.b/f` and `x/a/f`, the
directory level under `x` presents its two directory children as
`["a.b", "a"]` (their key-insertion order from the full-path sort, where
the `.` of `a.b` sorts before the `/` continuing `a`), although the
ascending segment-name order is `["a", "a.b"]` — the comparator never
orders same-kind siblings by name. -/
theorem c6_counterexample :
    childNames (buildFileTree [⟨"x/a.b/f", "d1"⟩, ⟨"x/a/f", "d2"⟩]) "x" =
      ["a.b", "a"] ∧
    ascB ["a.b", "a"] = false ∧ ascB ["a", "a.b"] = true := by
  refine ⟨by decide, by decide, by decide⟩

/-- C6 amended: at every directory level the presentation sort lists all
directory children before all leaf children; within each kind, siblings
keep their stored (key-insertion) order rather than being re-sorted by
segment name. -/
theorem c6_amended_dirs_before_leaves (m : Children) :
    presentSort m =
      m.filter (fun e => isDirEntry e) ++ m.filter (fun e => !isDirEntry e) :=
  presentSort_partition m

/-- C7 counterexample: two permutations of a duplicate-path list build
different trees — `buildFileTree` keeps the last occurrence in input
order (the path sort is stable), so reordering duplicates changes the
surviving payload. -/
theorem c7_counterexample :
    ([⟨"a", "d1"⟩, ⟨"a", "d2"⟩] : List FilePlan).Perm
        [⟨"a", "d2"⟩, ⟨"a", "d1"⟩] ∧
    leafAt (buildFileTree [⟨"a", "d1"⟩, ⟨"a", "d2"⟩]) "a" =
      some ⟨"a", "d2"⟩ ∧
    leafAt (buildFileTree [⟨"a", "d2"⟩, ⟨"a", "d1"⟩]) "a" =
      some ⟨"a", "d1"⟩ ∧
    buildFileTree [⟨"a", "d1"⟩, ⟨"a", "d2"⟩] ≠
      buildFileTree [⟨"a", "d2"⟩, ⟨"a", "d1"⟩] := by
  have e1 : leafAt (buildFileTree [⟨"a", "d1"⟩, ⟨"a", "d2"⟩]) "a" =
      some ⟨"a", "d2"⟩ := by decide
  have e2 : leafAt (buildFileTree [⟨"a", "d2"⟩, ⟨"a", "d1"⟩]) "a" =
      some ⟨"a", "d1"⟩ := by decide
  refine ⟨List.Perm.swap _ _ _, e1, e2, ?_⟩
  intro h
  have h2 := congrArg (fun t => leafAt t "a") h
  dsimp only [] at h2
  rw [e1, e2] at h2
  exact absurd h2 (by decide)

/-- C7 amended: for lists with pairwise-distinct paths, building the
tree from any permutation yields an identical tree; with duplicate paths
the last occurrence in input order wins, so permutations that reorder
duplicates can change the resulting leaf. -/
theorem c7_amended_perm_invariance (l1 l2 : List FilePlan)
    (hperm : l1.Perm l2) (hnd : (l1.map FilePlan.path).Nodup) :
    buildFileTree l1 = buildFileTree l2 := by
  have hs1 := List.sorted_insertionSort planLe l1
  have hs2 := List.sorted_insertionSort planLe l2
  have hp : (List.insertionSort planLe l1).Perm (List.insertionSort planLe l2) :=
    ((List.perm_insertionSort planLe l1).trans hperm).trans
      (List.perm_insertionSort planLe l2).symm
  have hnd1 : ((List.insertionSort planLe l1).map FilePlan.path).Nodup := by
    have hm := (List.perm_insertionSort planLe l1).map FilePlan.path
    exact hm.nodup_iff.mpr hnd
  have heq := sorted_perm_nodup_eq _ _ hp hs1 hs2 hnd1
  unfold buildFileTree
  rw [heq]

/-- C7 witness: swapping two distinct-path files builds the same tree. -/
theorem c7_witness :
    buildFileTree [⟨"a", "1"⟩, ⟨"b", "2"⟩] =
      buildFileTree [⟨"b", "2"⟩, ⟨"a", "1"⟩] :=
  c7_amended_perm_invariance _ _ (List.Perm.swap _ _ _) (by decide)

/-- C8 counterexample: the empty string is a bare string, but JavaScript
treats it as falsy, so the `if (!review)` guard returns the all-empty
review instead of a single legacy suggestion containing it. -/
theorem c8_counterexample :
    ensureStructuredReview (.str "") = emptyReview ∧
    ensureStructuredReview (.str "") ≠
      ⟨[], [], [⟨"legacy-review", ""⟩]⟩ := by
  refine ⟨by decide, by decide⟩

/-- C8 amended: missing values, invalid shapes and the (falsy) empty
string all normalize to the all-empty review; a non-empty bare string
becomes a single `legacy-review` suggestion under the other-suggestions
category; a value with all three array categories is returned
unchanged. -/
theorem c8_amended_normalization :
    ensureStructuredReview .missing = emptyReview ∧
    ensureStructuredReview (.str "") = emptyReview ∧
    (∀ s : String, s ≠ "" →
      ensureStructuredReview (.str s) = ⟨[], [], [⟨"legacy-review", s⟩]⟩) ∧
    (∀ c u t : List Suggestion,
      ensureStructuredReview (.obj ⟨some c, some u, some t⟩) = ⟨c, u, t⟩) ∧
    (∀ o : RawObj,
      o.crashBugs = none ∨ o.uiUxImprovements = none ∨
        o.otherSuggestions = none →
      ensureStructuredReview (.obj o) = emptyReview) := by
  refine ⟨rfl, rfl, ?_, ?_, ?_⟩
  · intro s hs
    unfold ensureStructuredReview
    rw [if_neg (by simp [isFalsy, hs])]
    rfl
  · intro c u t
    rfl
  · intro o ho
    obtain ⟨cb, ui, ot⟩ := o
    cases cb with
    | none => rfl
    | some c =>
        cases ui with
        | none => rfl
        | some u =>
            cases ot with
            | none => rfl
            | some t =>
                rcases ho with h | h | h <;> simp at h

/-- C8 witness: a non-empty legacy string. -/
theorem c8_witness :
    ensureStructuredReview (.str "x") = ⟨[], [], [⟨"legacy-review", "x"⟩]⟩ :=
  c8_amended_normalization.2.2.1 "x" (by decide)

/-- C9: in the initial generation walk with pairwise-distinct plan
paths, one file's generation failure is not fatal: that file's content
is the visible placeholder, every file whose generation succeeded holds
its generated content, and the review is still requested over the
resulting files. -/
theorem c9_single_failure_not_fatal (plan : List FilePlan)
    (gen : FilePlan → Option String) (f : FilePlan)
    (hnd : (plan.map FilePlan.path).Nodup) (hf : f ∈ plan)
    (hfail : gen f = none) :
    lookupA (handleGenerateApp plan gen).files f.path = some errorPlaceholder ∧
    (∀ g c, g ∈ plan → gen g = some c →
      lookupA (handleGenerateApp plan gen).files g.path = some c) ∧
    (handleGenerateApp plan gen).reviewedFiles =
      some (handleGenerateApp plan gen).files := by
  refine ⟨?_, ?_, rfl⟩
  · have H := lookupA_generateFiles_mem
      (fun g => match gen g with | some code => code | none => errorPlaceholder)
      plan [] f hnd hf
    simp only [hfail] at H
    exact H
  · intro g c hg hsome
    have H := lookupA_generateFiles_mem
      (fun g => match gen g with | some code => code | none => errorPlaceholder)
      plan [] g hnd hg
    simp only [hsome] at H
    exact H

/-- C9 witness: a two-file plan where the first file's generation
throws. -/
theorem c9_witness :
    lookupA (handleGenerateApp [⟨"a", "da"⟩, ⟨"b", "db"⟩]
        (fun f => if f.path = "a" then none else some "code")).files "a" =
      some errorPlaceholder :=
  (c9_single_failure_not_fatal [⟨"a", "da"⟩, ⟨"b", "db"⟩]
      (fun f => if f.path = "a" then none else some "code") ⟨"a", "da"⟩
      (by decide) (by decide) (by decide)).1

/-- C10: both import constructions assign the freshly generated id and
the import-time timestamp; any id or createdAt carried by the archive
metadata is discarded (the result does not depend on them), while the
metadata's prompt, plan and review (normalized) are carried over, and
the inferred import carries the synthesized plan and review. -/
theorem c10_import_fresh_identity (metadata : ImportMetadata)
    (importedFiles : List (String × String)) (freshId nowIso : String)
    (plan : AppPlan) (review : StructuredReview) :
    (importWithMetadata metadata importedFiles freshId nowIso).id = freshId ∧
    (importWithMetadata metadata importedFiles freshId nowIso).createdAt =
      nowIso ∧
    (importWithMetadata metadata importedFiles freshId nowIso).prompt =
      metadata.prompt ∧
    (importWithMetadata metadata importedFiles freshId nowIso).plan =
      metadata.plan ∧
    (importWithMetadata metadata importedFiles freshId nowIso).review =
      ensureStructuredReview metadata.review ∧
    (importWithMetadata metadata importedFiles freshId nowIso).files =
      importedFiles ∧
    (∀ oldId oldCreated : Option String,
      importWithMetadata { metadata with id := oldId, createdAt := oldCreated }
          importedFiles freshId nowIso =
        importWithMetadata metadata importedFiles freshId nowIso) ∧
    (importInferred plan review importedFiles freshId nowIso).id = freshId ∧
    (importInferred plan review importedFiles freshId nowIso).createdAt =
      nowIso ∧
    (importInferred plan review importedFiles freshId nowIso).plan = plan ∧
    (importInferred plan review importedFiles freshId nowIso).review = review :=
  ⟨rfl, rfl, rfl, rfl, rfl, rfl, fun _ _ => rfl, rfl, rfl, rfl, rfl⟩
